import Mathlib

/-!
Verification of the go-sse provider core (`joe.go`, `replay_noop.go`) against its
natural-language specification.  The Go code is shallowly embedded: the engine's
mutable topic table (`map[string]map[subscriber]MessageWriter`) becomes an
association list, channels become explicit event logs, and each arm of the
`Joe.start` select loop becomes a pure step function on the engine state.
-/

namespace GoSSE

/-- An event message.  The engine treats messages as opaque; only identity
matters for the delivery claims, so we model the payload as a `Nat` id plus
a data string (mirroring `Message`'s id/data fields). -/
structure Message where
  id : Nat
  data : String := ""
  deriving DecidableEq, Repr

/-- The errors that flow through the provider: the two sentinel errors of
`sse.go` (`ErrProviderClosed`, `ErrNoTopic`) and opaque implementation errors
coming from sinks, `Replay` and `GC`. -/
inductive Err where
  | providerClosed
  | noTopic
  | sinkFail (n : Nat)
  | replayFail (n : Nat)
  | gcFail (n : Nat)
  deriving DecidableEq, Repr

/-- A subscriber handle.  In `joe.go` this is the `done` channel
(`chan<- error`) that doubles as the key in the per-topic subscriber maps; we
model the key as an opaque token and track the channel traffic in `StepLog`. -/
abbrev SubId := Nat

/-- A message sink (`MessageWriter`): `Send` may fail per message, `Flush`
may fail.  `sendErr m = none` means `Send(m)` returned nil. -/
structure Client where
  sendErr : Message → Option Err
  flushErr : Option Err

/-- `err := c.Send(toDispatch); if err == nil { err = c.Flush() }`
(joe.go, publish arm of `Joe.start`). -/
def sendFlush (c : Client) (m : Message) : Option Err :=
  match c.sendErr m with
  | some e => some e
  | none => c.flushErr

/-- One topic's subscriber map `map[subscriber]MessageWriter`; keys are unique. -/
abbrev Subscribers := List (SubId × Client)

/-- The topic table `map[string]map[subscriber]MessageWriter`; keys are unique. -/
abbrev Topic := String

abbrev Topics := List (Topic × Subscribers)

/-- Reading `j.topics[topic]`: a missing key yields the empty (nil) map. -/
def getTopic (tbl : Topics) (t : Topic) : Subscribers :=
  match tbl.find? (fun e => e.1 == t) with
  | some e => e.2
  | none => []

/-- `Joe.removeSubscriber`'s table mutation: `for _, subs := range j.topics
{ delete(subs, sub) }` — drop the handle from every topic's map (the `close`
is tracked separately in the step logs). -/
def removeSub (tbl : Topics) (s : SubId) : Topics :=
  tbl.map (fun e => (e.1, e.2.filter (fun p => p.1 != s)))

/-- Well-formedness every Go map satisfies: distinct keys. -/
def WfS (subs : Subscribers) : Prop := (subs.map Prod.fst).Nodup

/-- Well-formedness of the topic table: distinct topic keys and distinct
subscriber keys inside each topic. -/
def WfT (tbl : Topics) : Prop :=
  (tbl.map Prod.fst).Nodup ∧ ∀ e ∈ tbl, WfS e.2

instance (subs : Subscribers) : Decidable (WfS subs) := by
  unfold WfS; infer_instance

instance (tbl : Topics) : Decidable (WfT tbl) := by
  unfold WfT WfS; infer_instance

/-- The observable effects of one engine step: `Send` invocations on sinks,
errors delivered on subscriber `done` channels, handles closed, and results of
`GC()` invocations. -/
structure StepLog where
  sends : List (SubId × Message) := []
  errs : List (SubId × Err) := []
  closedSubs : List SubId := []
  gcCalls : List (Option Err) := []
  deriving Repr

/-- Number of `Send` invocations a given subscriber's sink received in a step. -/
def sentTo (log : StepLog) (s : SubId) : Nat :=
  (log.sends.filter (fun p => p.1 == s)).length

/-- The errors delivered on a given subscriber's `done` channel in a step. -/
def errsFor (log : StepLog) (s : SubId) : List Err :=
  (log.errs.filter (fun p => p.1 == s)).map Prod.snd

/-- The clients registered for subscriber `s` under topic `t`. -/
def subEntries (tbl : Topics) (t : Topic) (s : SubId) : List Client :=
  ((getTopic tbl t).filter (fun p => p.1 == s)).map Prod.snd

/-- Whether subscriber `s` is registered under topic `t`. -/
def memT (tbl : Topics) (t : Topic) (s : SubId) : Bool :=
  (getTopic tbl t).any (fun p => p.1 == s)

/-- Whether subscriber `s` is registered under any topic of the table. -/
def registeredB (tbl : Topics) (s : SubId) : Bool :=
  tbl.any (fun e => e.2.any (fun p => p.1 == s))

/-- State threaded through the publish arm: the evolving topic table, the
per-step `seen` de-duplication set, and the effect log. -/
structure DispatchSt where
  tbl : Topics
  seen : List SubId
  log : StepLog

/-- Body of the inner loop `for done, c := range j.topics[topic]` of the
publish arm: skip if already delivered (`seen`), otherwise `Send`+`Flush`; on
error, deliver the error on `done`, remove the subscriber from every topic and
close its handle; on success mark it `seen`. -/
def dispatchOne (d : Message) (st : DispatchSt) (p : SubId × Client) : DispatchSt :=
  if p.1 ∈ st.seen then st
  else
    let log1 := { st.log with sends := st.log.sends ++ [(p.1, d)] }
    match sendFlush p.2 d with
    | some e =>
        { tbl := removeSub st.tbl p.1
          seen := st.seen
          log := { log1 with errs := log1.errs ++ [(p.1, e)]
                             closedSubs := log1.closedSubs ++ [p.1] } }
    | none => { st with seen := p.1 :: st.seen, log := log1 }

/-- The inner loop over one topic's subscriber map (a snapshot of
`j.topics[topic]` at the time the topic is reached). -/
def dispatchList (d : Message) (lst : Subscribers) (st : DispatchSt) : DispatchSt :=
  lst.foldl (dispatchOne d) st

/-- The outer loop `for _, topic := range msg.topics` of the publish arm;
each topic's subscriber map is read from the current (possibly already
pruned) table. -/
def dispatchTopics (d : Message) (tps : List Topic) (st : DispatchSt) : DispatchSt :=
  tps.foldl (fun st t => dispatchList d (getTopic st.tbl t) st) st

/-- The whole publish arm of `Joe.start`: `toDispatch := replay.Put(...)`,
fresh `seen` set, then the two nested loops. -/
def publishStep (put : Message → List Topic → Message) (tbl : Topics)
    (m : Message) (tps : List Topic) : Topics × StepLog :=
  let st := dispatchTopics (put m tps) tps { tbl := tbl, seen := [], log := {} }
  (st.tbl, st.log)

/-- A subscription request as the engine sees it (`Subscription` of `sse.go`):
the sink, the last-seen event id and the requested topics. -/
structure Subscription where
  client : Client
  lastEventID : String := ""
  topics : List Topic

/-- A replay provider: `Put` records (and may replace) a message, `Replay`
replays history to a new subscription, returning `some` error on failure and
`none` on success (a Go `error` result). -/
structure ReplayProvider where
  put : Message → List Topic → Message
  replay : Subscription → Option Err

/-- The queued subscription value of `joe.go`: the `done` handle plus the
subscription proper. -/
structure SubRequest where
  done : SubId
  sub : Subscription

/-- `Joe.topic`: ensure a (possibly empty) entry for the identifier exists.
Entries are only ever created, never deleted. -/
def ensureTopic (tbl : Topics) (t : Topic) : Topics :=
  if tbl.any (fun e => e.1 == t) then tbl else tbl ++ [(t, [])]

/-- Go map assignment `subs[done] = client`: overwrite or append. -/
def setSub (subs : Subscribers) (s : SubId) (c : Client) : Subscribers :=
  if subs.any (fun p => p.1 == s) then
    subs.map (fun p => if p.1 == s then (s, c) else p)
  else subs ++ [(s, c)]

/-- `j.topic(topic)[sub.done] = sub.Client`: ensure the entry then assign. -/
def topicInsert (tbl : Topics) (t : Topic) (s : SubId) (c : Client) : Topics :=
  (ensureTopic tbl t).map (fun e => if e.1 == t then (e.1, setSub e.2 s c) else e)

/-- The subscribe arm of `Joe.start`: run `Replay`; on error deliver the error
on the request's `done` channel, close it and register nothing; on success
register the sink under every requested topic. -/
def subscribeStep (rp : ReplayProvider) (tbl : Topics) (req : SubRequest) :
    Topics × StepLog :=
  match rp.replay req.sub with
  | some e => (tbl, { errs := [(req.done, e)], closedSubs := [req.done] })
  | none =>
      (req.sub.topics.foldl (fun acc t => topicInsert acc t req.done req.sub.client) tbl,
       {})

/-- Engine state: the topic table plus whether the GC ticker is running
(`ticker` returns a live channel only for a positive interval, and the loop
calls `stopGCSignal` when `GC()` fails). -/
structure EngineState where
  topics : Topics
  gcActive : Bool

/-- One request arriving at the `Joe.start` select loop.  `gcTick res`
carries, as an oracle, the value the provider's `GC()` returns at that tick. -/
inductive Request where
  | publish (m : Message) (tps : List Topic)
  | subscribe (req : SubRequest)
  | unsubscribe (s : SubId)
  | gcTick (res : Option Err)

/-- One iteration of the `Joe.start` loop, handling a single request.
The unsubscription arm is `Joe.removeSubscriber` (prune from every topic,
close the handle); the GC arm invokes `GC()` only while the ticker runs and
calls `stopGCSignal` on error. -/
def engineStep (rp : ReplayProvider) (st : EngineState) : Request → EngineState × StepLog
  | .publish m tps =>
      let r := publishStep rp.put st.topics m tps
      ({ st with topics := r.1 }, r.2)
  | .subscribe req =>
      let r := subscribeStep rp st.topics req
      ({ st with topics := r.1 }, r.2)
  | .unsubscribe s =>
      ({ st with topics := removeSub st.topics s }, { closedSubs := [s] })
  | .gcTick res =>
      if st.gcActive then ({ st with gcActive := res.isNone }, { gcCalls := [res] })
      else (st, {})

/-- Run the engine over a sequence of requests, collecting the per-step logs. -/
def engineRun (rp : ReplayProvider) (st : EngineState) : List Request → EngineState × List StepLog
  | [] => (st, [])
  | r :: rs =>
      let x := engineStep rp st r
      let y := engineRun rp x.1 rs
      (y.1, x.2 :: y.2)

/-- The inner loop of `Joe.closeSubscribers` over one topic's subscriber map:
close each handle not seen yet in this sweep and record it as seen. -/
def closeAcc (acc : List SubId) (subs : Subscribers) : List SubId :=
  subs.foldl (fun acc p => if p.1 ∈ acc then acc else acc ++ [p.1]) acc

/-- `Joe.closeSubscribers`: walk the whole table and close every handle not
closed yet in this sweep (de-duplicated through the `seen` map).  Returns the
closed handles in closing order. -/
def closeSubscribers (tbl : Topics) : List SubId :=
  tbl.foldl (fun seen e => closeAcc seen e.2) []

/-- The provider-level state: the engine plus the `done` (stop signal) and
`closed` (loop exited) channels, each modeled by its closed flag. -/
structure JoeState where
  engine : EngineState
  doneClosed : Bool
  closedClosed : Bool

/-- The deferred cleanup of `Joe.start`, run on every exit of the loop,
normal return or panic unwind alike: `stopGCSignal()`, `closeSubscribers()`
and `close(j.closed)` (deferred in LIFO order). -/
def loopExit (st : JoeState) : JoeState × List SubId :=
  ({ st with closedClosed := true
             engine := { st.engine with gcActive := false } },
   closeSubscribers st.engine.topics)

/-- `Joe.Shutdown` with a caller context that is not done (the claim's
scenario): `close(j.done)` panics if the stop signal was already closed and
the deferred `recover` converts the panic into `ErrProviderClosed`, returning
before the wait; otherwise the loop observes the signal, exits through its
deferred cleanup and `Shutdown` returns nil once `j.closed` is closed. -/
def shutdown (st : JoeState) : Option Err × JoeState :=
  if st.doneClosed then (some Err.providerClosed, st)
  else (none, (loopExit { st with doneClosed := true }).1)

/-- `Joe.Publish`: reject an empty topic list with `ErrNoTopic` before doing
anything else; then race the enqueue against the closed `done` channel.  The
second component is the request handed to the engine loop (`none` when the
request never reaches the loop, so `Put` is not invoked for it). -/
def publish (st : JoeState) (m : Message) (tps : List Topic) :
    Option Err × Option (Message × List Topic) :=
  if tps.isEmpty then (some Err.noTopic, none)
  else if st.doneClosed then (some Err.providerClosed, none)
  else (none, some (m, tps))

/-- The value a blocked `Joe.Subscribe` call returns when the engine delivers
errors on the subscriber's `done` channel: the first `case err := <-done`
yields the first (and only) delivered error. -/
def subscribeReturn (delivered : List Err) : Option Err := delivered.head?

/-- The noop replay provider exactly as written in `replay_noop.go`: its `Put`
takes only the message — no topics parameter. -/
def noopReplayProvider_Put (m : Message) : Message := m

/-- The noop replay provider's `Replay` exactly as written in
`replay_noop.go`: it returns the boolean `true`, not a nil `error`. -/
def noopReplayProvider_Replay (_ : Subscription) : Bool := true

/-- Invariant for the publish arm, "not yet encountered": subscriber `s` has
received no `Send`, is not in the `seen` set, its registrations are those of
the pre-step table `tbl0`, and no error was delivered to it. -/
def FreshSt (tbl0 : Topics) (s : SubId) (st : DispatchSt) : Prop :=
  sentTo st.log s = 0 ∧ s ∉ st.seen ∧
    (∀ t, subEntries st.tbl t s = subEntries tbl0 t s) ∧ errsFor st.log s = []

/-- Invariant for the publish arm, "delivered": `s` received exactly one
`Send`, is in the `seen` set, and one of its pre-step clients accepted the
message. -/
def DoneSt (tbl0 : Topics) (d : Message) (s : SubId) (st : DispatchSt) : Prop :=
  sentTo st.log s = 1 ∧ s ∈ st.seen ∧
    ∃ t c, c ∈ subEntries tbl0 t s ∧ sendFlush c d = none

/-- Invariant for the publish arm, "failed and removed": `s` received exactly
one `Send`, is registered nowhere anymore, its handle was closed, and the one
delivered error is the one its pre-step client produced. -/
def RemovedSt (tbl0 : Topics) (d : Message) (s : SubId) (st : DispatchSt) : Prop :=
  sentTo st.log s = 1 ∧ registeredB st.tbl s = false ∧ s ∈ st.log.closedSubs ∧
    ∃ t c e, c ∈ subEntries tbl0 t s ∧ sendFlush c d = some e ∧
      errsFor st.log s = [e]

/-- The full publish-arm invariant for one observed subscriber. -/
def InvSt (tbl0 : Topics) (d : Message) (s : SubId) (st : DispatchSt) : Prop :=
  WfT st.tbl ∧ (FreshSt tbl0 s st ∨ DoneSt tbl0 d s st ∨ RemovedSt tbl0 d s st)

/-! ### Concrete fixtures used to evaluate the theorems on closed inputs -/

/-- A sink that accepts every message. -/
def okClient : Client := ⟨fun _ => none, none⟩

/-- A sink whose `Send` always fails with sink error 7. -/
def badClient : Client := ⟨fun _ => some (Err.sinkFail 7), none⟩

/-- A sample message. -/
def msgA : Message := ⟨1, "hello"⟩

/-- Subscriber 0 registered under topics `a` and `b`, subscriber 1 under `a`. -/
def tblAB : Topics := [("a", [(0, okClient), (1, okClient)]), ("b", [(0, okClient)])]

/-- Subscriber 0, whose sink fails, registered under topics `a` and `b`. -/
def tblBad : Topics := [("a", [(0, badClient)]), ("b", [(0, badClient)])]

/-- A replay provider whose `Put` is the identity and whose `Replay` always
succeeds (the behavior the spec ascribes to the no-op provider). -/
def idProvider : ReplayProvider := ⟨fun m _ => m, fun _ => none⟩

/-- A replay provider whose `Replay` always fails with replay error 3. -/
def failProvider : ReplayProvider := ⟨fun m _ => m, fun _ => some (Err.replayFail 3)⟩

/-- A sample subscription on topics `a` and `b`. -/
def subA : Subscription := ⟨okClient, "", ["a", "b"]⟩

/-- A sample queued subscription request with handle 5. -/
def reqA : SubRequest := ⟨5, subA⟩

/-- A sample running provider state. -/
def jsOpen : JoeState := ⟨⟨tblAB, true⟩, false, false⟩

/-- A provider state whose stop signal has already been closed. -/
def jsClosed : JoeState := ⟨⟨tblAB, true⟩, true, false⟩

/-- A sample engine state with the GC ticker running. -/
def esActive : EngineState := ⟨tblAB, true⟩

/-! ### Support lemmas about the table operations -/

lemma anyCongrMem {α : Type} (l : List α) (p q : α → Bool) (h : ∀ x ∈ l, p x = q x) :
    l.any p = l.any q := by
  induction l with
  | nil => rfl
  | cons a l ih =>
    simp only [List.any_cons, h a (by simp)]
    rw [ih (fun x hx => h x (by simp [hx]))]

lemma getTopic_removeSub (tbl : Topics) (s' : SubId) (t : Topic) :
    getTopic (removeSub tbl s') t = (getTopic tbl t).filter (fun p => p.1 != s') := by
  induction tbl with
  | nil => rfl
  | cons e rest ih =>
    by_cases h : e.1 = t
    · simp [getTopic, removeSub, List.find?_cons, h]
    · simpa [getTopic, removeSub, List.find?_cons, h] using ih

lemma subEntries_removeSub_ne (tbl : Topics) (t : Topic) (s s' : SubId) (h : s ≠ s') :
    subEntries (removeSub tbl s') t s = subEntries tbl t s := by
  unfold subEntries
  rw [getTopic_removeSub, List.filter_filter]
  congr 1
  apply List.filter_congr
  intro p _
  by_cases hp : p.1 = s
  · subst hp
    simp [bne_iff_ne, Ne.symm, h]
  · simp [hp]

lemma registeredB_removeSub_ne (tbl : Topics) (s s' : SubId) (h : s ≠ s') :
    registeredB (removeSub tbl s') s = registeredB tbl s := by
  unfold registeredB removeSub
  rw [List.any_map]
  apply anyCongrMem
  intro e _
  simp only [Function.comp]
  rw [Bool.eq_iff_iff]
  simp only [List.any_eq_true, List.mem_filter]
  constructor
  · rintro ⟨p, ⟨hp, _⟩, hps⟩; exact ⟨p, hp, hps⟩
  · rintro ⟨p, hp, hps⟩
    refine ⟨p, ⟨hp, ?_⟩, hps⟩
    have : p.1 = s := by simpa using hps
    simp [bne_iff_ne, this, h]

lemma registeredB_removeSub_self (tbl : Topics) (s : SubId) :
    registeredB (removeSub tbl s) s = false := by
  unfold registeredB removeSub
  rw [List.any_map]
  rw [Bool.eq_false_iff]
  intro hc
  rw [List.any_eq_true] at hc
  obtain ⟨e, _, he⟩ := hc
  simp only [Function.comp, List.any_eq_true, List.mem_filter] at he
  obtain ⟨p, ⟨_, hne⟩, heq⟩ := he
  have h1 : p.1 = s := by simpa using heq
  simp [bne_iff_ne, h1] at hne

lemma memT_eq_false_of_not_registered (tbl : Topics) (s : SubId)
    (h : registeredB tbl s = false) (t : Topic) : memT tbl t s = false := by
  unfold memT getTopic
  cases hf : tbl.find? (fun e => e.1 == t) with
  | none => rfl
  | some e =>
    have he : e ∈ tbl := List.mem_of_find?_eq_some hf
    rw [Bool.eq_false_iff]
    intro hc
    rw [Bool.eq_false_iff] at h
    exact h (List.any_eq_true.2 ⟨e, he, hc⟩)

lemma memT_iff_subEntries (tbl : Topics) (t : Topic) (s : SubId) :
    memT tbl t s = true ↔ subEntries tbl t s ≠ [] := by
  unfold memT subEntries
  rw [List.any_eq_true]
  constructor
  · rintro ⟨p, hp, hps⟩
    intro hc
    rw [List.map_eq_nil_iff, List.filter_eq_nil_iff] at hc
    exact absurd hps (by simpa using hc p hp)
  · intro hne
    rcases List.exists_mem_of_ne_nil _ hne with ⟨c, hc⟩
    rw [List.mem_map] at hc
    obtain ⟨p, hp, _⟩ := hc
    rw [List.mem_filter] at hp
    exact ⟨p, hp.1, hp.2⟩

lemma not_mem_keys_of_not_registered (tbl : Topics) (s : SubId) (t : Topic)
    (h : registeredB tbl s = false) : s ∉ (getTopic tbl t).map Prod.fst := by
  intro hc
  rw [List.mem_map] at hc
  obtain ⟨p, hp, hps⟩ := hc
  have : memT tbl t s = true := List.any_eq_true.2 ⟨p, hp, by simp [hps]⟩
  rw [memT_eq_false_of_not_registered tbl s h t] at this
  exact Bool.false_ne_true this

/-! ### Support lemmas about the step log -/

lemma sentTo_append (log : StepLog) (x : SubId) (d : Message) (s : SubId) :
    sentTo { log with sends := log.sends ++ [(x, d)] } s =
      sentTo log s + (if x = s then 1 else 0) := by
  unfold sentTo
  rw [List.filter_append]
  by_cases h : x = s <;> simp [h]

lemma errsFor_append (log : StepLog) (x : SubId) (e : Err) (s : SubId) :
    errsFor { log with errs := log.errs ++ [(x, e)] } s =
      errsFor log s ++ (if x = s then [e] else []) := by
  unfold errsFor
  rw [List.filter_append]
  by_cases h : x = s <;> simp [h]

/-! ### Per-element and per-topic dispatch lemmas -/

/-- Processing one registry entry whose key is not the observed subscriber `s`
(or is skipped as already seen) leaves every `s`-observable fact unchanged. -/
lemma dispatchOne_ne (d : Message) (st : DispatchSt) (p : SubId × Client) (s : SubId)
    (hne : p.1 ≠ s ∨ p.1 ∈ st.seen) :
    sentTo (dispatchOne d st p).log s = sentTo st.log s ∧
    (s ∈ (dispatchOne d st p).seen ↔ s ∈ st.seen) ∧
    errsFor (dispatchOne d st p).log s = errsFor st.log s ∧
    (∀ t, subEntries (dispatchOne d st p).tbl t s = subEntries st.tbl t s) ∧
    registeredB (dispatchOne d st p).tbl s = registeredB st.tbl s := by
  unfold dispatchOne
  by_cases hseen : p.1 ∈ st.seen
  · simp [hseen]
  · have hps : p.1 ≠ s := hne.resolve_right hseen
    simp only [hseen, if_false]
    cases hsf : sendFlush p.2 d with
    | some e =>
      dsimp only
      refine ⟨?_, ?_, ?_, ?_, ?_⟩
      · simp [sentTo, List.filter_append, hps]
      · exact Iff.rfl
      · simp [errsFor, List.filter_append, hps]
      · intro t
        exact subEntries_removeSub_ne st.tbl t s p.1 (Ne.symm hps)
      · exact registeredB_removeSub_ne st.tbl s p.1 (Ne.symm hps)
    | none =>
      dsimp only
      refine ⟨?_, ?_, ?_, ?_, ?_⟩
      · simp [sentTo, List.filter_append, hps]
      · simp [Ne.symm hps]
      · rfl
      · intro t; rfl
      · rfl

/-- The closed-handle list only grows along a dispatch. -/
lemma dispatchList_closed_mono (d : Message) (lst : Subscribers) (st : DispatchSt)
    (x : SubId) (hx : x ∈ st.log.closedSubs) :
    x ∈ (dispatchList d lst st).log.closedSubs := by
  induction lst generalizing st with
  | nil => exact hx
  | cons p rest ih =>
    rw [dispatchList, List.foldl_cons]
    apply ih
    unfold dispatchOne
    by_cases hseen : p.1 ∈ st.seen
    · simpa [hseen] using hx
    · simp only [hseen, if_false]
      cases sendFlush p.2 d with
      | some e => simp [hx]
      | none => simpa using hx

/-- Traversing a subscriber list that either cannot reach `s` (it is absent
from the keys) or will skip it (it is `seen`) changes no `s`-observable fact. -/
lemma dispatchList_noop (d : Message) (s : SubId) (lst : Subscribers) (st : DispatchSt)
    (h : s ∈ st.seen ∨ s ∉ lst.map Prod.fst) :
    sentTo (dispatchList d lst st).log s = sentTo st.log s ∧
    (s ∈ (dispatchList d lst st).seen ↔ s ∈ st.seen) ∧
    errsFor (dispatchList d lst st).log s = errsFor st.log s ∧
    (∀ t, subEntries (dispatchList d lst st).tbl t s = subEntries st.tbl t s) ∧
    registeredB (dispatchList d lst st).tbl s = registeredB st.tbl s := by
  induction lst generalizing st with
  | nil => exact ⟨rfl, Iff.rfl, rfl, fun _ => rfl, rfl⟩
  | cons p rest ih =>
    rw [dispatchList, List.foldl_cons]
    have hp : p.1 ≠ s ∨ p.1 ∈ st.seen := by
      rcases h with hs | hk
      · by_cases hps : p.1 ∈ st.seen
        · exact Or.inr hps
        · exact Or.inl (fun hc => hps (hc ▸ hs))
      · exact Or.inl (fun hc => hk (by simp [← hc]))
    obtain ⟨h1, h2, h3, h4, h5⟩ := dispatchOne_ne d st p s hp
    have hrec : s ∈ (dispatchOne d st p).seen ∨ s ∉ rest.map Prod.fst := by
      rcases h with hs | hk
      · exact Or.inl (h2.2 hs)
      · exact Or.inr (fun hc => hk (by simp [hc]))
    obtain ⟨g1, g2, g3, g4, g5⟩ := ih (dispatchOne d st p) hrec
    exact ⟨g1.trans h1, g2.trans h2, g3.trans h3,
      fun t => (g4 t).trans (h4 t), g5.trans h5⟩

/-- Traversing a subscriber list (with the unique keys every Go map has) that
contains the not-yet-seen subscriber `s` with client `c` invokes `Send` on
`s`'s sink exactly once: on success `s` is marked seen with its registrations
intact; on failure the sink's error is delivered on `s`'s channel, `s` is
pruned from the whole table and its handle is closed. -/
lemma dispatchList_hit (d : Message) (s : SubId) (c : Client) (lst : Subscribers)
    (st : DispatchSt) (hnd : (lst.map Prod.fst).Nodup) (hmem : (s, c) ∈ lst)
    (hseen : s ∉ st.seen) :
    sentTo (dispatchList d lst st).log s = sentTo st.log s + 1 ∧
    ((sendFlush c d = none ∧ s ∈ (dispatchList d lst st).seen ∧
        errsFor (dispatchList d lst st).log s = errsFor st.log s ∧
        (∀ t, subEntries (dispatchList d lst st).tbl t s = subEntries st.tbl t s)) ∨
      (∃ e, sendFlush c d = some e ∧
        registeredB (dispatchList d lst st).tbl s = false ∧
        errsFor (dispatchList d lst st).log s = errsFor st.log s ++ [e] ∧
        s ∈ (dispatchList d lst st).log.closedSubs)) := by
  induction lst generalizing st with
  | nil => cases hmem
  | cons p rest ih =>
    rw [List.map_cons, List.nodup_cons] at hnd
    rw [dispatchList, List.foldl_cons]
    by_cases hp : p.1 = s
    · have hpc : p = (s, c) := by
        cases hmem with
        | head => rfl
        | tail _ htail =>
          exact absurd (hp ▸ List.mem_map.2 ⟨(s, c), htail, rfl⟩) hnd.1
      subst hpc
      have hkeys : s ∉ rest.map Prod.fst := hnd.1
      cases hsf : sendFlush c d with
      | none =>
        have hstep : dispatchOne d st (s, c) =
            { st with seen := s :: st.seen,
                      log := { st.log with sends := st.log.sends ++ [(s, d)] } } := by
          simp [dispatchOne, hseen, hsf]
        rw [show List.foldl (dispatchOne d) (dispatchOne d st (s, c)) rest =
            dispatchList d rest (dispatchOne d st (s, c)) from rfl, hstep]
        obtain ⟨g1, g2, g3, g4, _⟩ :=
          dispatchList_noop d s rest
            { st with seen := s :: st.seen,
                      log := { st.log with sends := st.log.sends ++ [(s, d)] } }
            (Or.inl (by simp))
        refine ⟨?_, Or.inl ⟨rfl, ?_, ?_, ?_⟩⟩
        · rw [g1]; simp [sentTo, List.filter_append]
        · exact g2.2 (by simp)
        · rw [g3]; rfl
        · intro t; rw [g4 t]
      | some e =>
        have hstep : dispatchOne d st (s, c) =
            { tbl := removeSub st.tbl s, seen := st.seen,
              log := { st.log with sends := st.log.sends ++ [(s, d)]
                                   errs := st.log.errs ++ [(s, e)]
                                   closedSubs := st.log.closedSubs ++ [s] } } := by
          simp [dispatchOne, hseen, hsf]
        rw [show List.foldl (dispatchOne d) (dispatchOne d st (s, c)) rest =
            dispatchList d rest (dispatchOne d st (s, c)) from rfl, hstep]
        obtain ⟨g1, _, g3, _, g5⟩ :=
          dispatchList_noop d s rest
            { tbl := removeSub st.tbl s, seen := st.seen,
              log := { st.log with sends := st.log.sends ++ [(s, d)]
                                   errs := st.log.errs ++ [(s, e)]
                                   closedSubs := st.log.closedSubs ++ [s] } }
            (Or.inr hkeys)
        refine ⟨?_, Or.inr ⟨e, rfl, ?_, ?_, ?_⟩⟩
        · rw [g1]; simp [sentTo, List.filter_append]
        · rw [g5]; exact registeredB_removeSub_self st.tbl s
        · rw [g3]; simp [errsFor, List.filter_append]
        · exact dispatchList_closed_mono d rest _ s (by simp)
    · have hmem' : (s, c) ∈ rest := by
        cases hmem with
        | head => exact absurd rfl hp
        | tail _ htail => exact htail
      rw [show List.foldl (dispatchOne d) (dispatchOne d st p) rest =
          dispatchList d rest (dispatchOne d st p) from rfl]
      obtain ⟨h1, h2, h3, h4, h5⟩ := dispatchOne_ne d st p s (Or.inl hp)
      have hseen' : s ∉ (dispatchOne d st p).seen := fun hc => hseen (h2.1 hc)
      obtain ⟨g1, gdisj⟩ := ih (dispatchOne d st p) hnd.2 hmem' hseen'
      refine ⟨by rw [g1, h1], ?_⟩
      rcases gdisj with ⟨hsf, gseen, gerr, gsub⟩ | ⟨e, hsf, greg, gerr, gcl⟩
      · exact Or.inl ⟨hsf, gseen, by rw [gerr, h3],
          fun t => by rw [gsub t, h4 t]⟩
      · exact Or.inr ⟨e, hsf, greg, by rw [gerr, h3], gcl⟩

/-! ### Well-formedness and key preservation -/

lemma removeSub_keys (tbl : Topics) (s : SubId) :
    (removeSub tbl s).map Prod.fst = tbl.map Prod.fst := by
  unfold removeSub
  rw [List.map_map]
  rfl

lemma wfT_removeSub (tbl : Topics) (s : SubId) (h : WfT tbl) :
    WfT (removeSub tbl s) := by
  constructor
  · rw [removeSub_keys]; exact h.1
  · intro e he
    rw [removeSub, List.mem_map] at he
    obtain ⟨e0, he0, rfl⟩ := he
    have := h.2 e0 he0
    unfold WfS at this ⊢
    exact List.Nodup.sublist (List.Sublist.map _ (List.filter_sublist _)) this

lemma getTopic_wfS (tbl : Topics) (t : Topic) (h : WfT tbl) :
    WfS (getTopic tbl t) := by
  unfold getTopic
  cases hf : tbl.find? (fun e => e.1 == t) with
  | none => exact List.nodup_nil
  | some e => exact h.2 e (List.mem_of_find?_eq_some hf)

lemma dispatchList_keys (d : Message) (lst : Subscribers) (st : DispatchSt) :
    (dispatchList d lst st).tbl.map Prod.fst = st.tbl.map Prod.fst := by
  induction lst generalizing st with
  | nil => rfl
  | cons p rest ih =>
    rw [dispatchList, List.foldl_cons,
      show List.foldl (dispatchOne d) (dispatchOne d st p) rest =
        dispatchList d rest (dispatchOne d st p) from rfl, ih]
    unfold dispatchOne
    by_cases hseen : p.1 ∈ st.seen
    · simp [hseen]
    · simp only [hseen, if_false]
      cases sendFlush p.2 d with
      | some e => exact removeSub_keys st.tbl p.1
      | none => rfl

lemma dispatchList_wfT (d : Message) (lst : Subscribers) (st : DispatchSt)
    (h : WfT st.tbl) : WfT (dispatchList d lst st).tbl := by
  induction lst generalizing st with
  | nil => exact h
  | cons p rest ih =>
    rw [dispatchList, List.foldl_cons]
    apply ih
    unfold dispatchOne
    by_cases hseen : p.1 ∈ st.seen
    · simpa [hseen] using h
    · simp only [hseen, if_false]
      cases sendFlush p.2 d with
      | some e => exact wfT_removeSub st.tbl p.1 h
      | none => exact h

lemma dispatchTopics_keys (d : Message) (tps : List Topic) (st : DispatchSt) :
    (dispatchTopics d tps st).tbl.map Prod.fst = st.tbl.map Prod.fst := by
  induction tps generalizing st with
  | nil => rfl
  | cons t ts ih =>
    rw [dispatchTopics, List.foldl_cons]
    rw [show List.foldl (fun st t => dispatchList d (getTopic st.tbl t) st)
        (dispatchList d (getTopic st.tbl t) st) ts =
        dispatchTopics d ts (dispatchList d (getTopic st.tbl t) st) from rfl]
    rw [ih, dispatchList_keys]

/-! ### More membership helpers -/

lemma exists_entry_of_memT (tbl : Topics) (t : Topic) (s : SubId)
    (h : memT tbl t s = true) : ∃ c, (s, c) ∈ getTopic tbl t := by
  unfold memT at h
  rw [List.any_eq_true] at h
  obtain ⟨p, hp, hps⟩ := h
  have h1 : p.1 = s := by simpa using hps
  exact ⟨p.2, by rw [← h1]; exact hp⟩

lemma subEntries_of_entry (tbl : Topics) (t : Topic) (s : SubId) (c : Client)
    (h : (s, c) ∈ getTopic tbl t) : c ∈ subEntries tbl t s := by
  unfold subEntries
  rw [List.mem_map]
  exact ⟨(s, c), List.mem_filter.2 ⟨h, by simp⟩, rfl⟩

lemma memT_false_not_mem_keys (tbl : Topics) (t : Topic) (s : SubId)
    (h : memT tbl t s = false) : s ∉ (getTopic tbl t).map Prod.fst := by
  intro hc
  rw [List.mem_map] at hc
  obtain ⟨p, hp, hps⟩ := hc
  have : memT tbl t s = true := List.any_eq_true.2 ⟨p, hp, by simp [hps]⟩
  rw [h] at this
  exact Bool.false_ne_true this

/-! ### The per-topic invariant step -/

lemma stepTopic_inv (tbl0 : Topics) (d : Message) (s : SubId) (t : Topic)
    (st : DispatchSt) (h : InvSt tbl0 d s st) :
    InvSt tbl0 d s (dispatchList d (getTopic st.tbl t) st) ∧
    ((DoneSt tbl0 d s st ∨ RemovedSt tbl0 d s st) →
      (DoneSt tbl0 d s (dispatchList d (getTopic st.tbl t) st) ∨
        RemovedSt tbl0 d s (dispatchList d (getTopic st.tbl t) st))) ∧
    (memT tbl0 t s = true →
      (DoneSt tbl0 d s (dispatchList d (getTopic st.tbl t) st) ∨
        RemovedSt tbl0 d s (dispatchList d (getTopic st.tbl t) st))) := by
  obtain ⟨hwf, hstate⟩ := h
  have hwf' : WfT (dispatchList d (getTopic st.tbl t) st).tbl :=
    dispatchList_wfT d _ st hwf
  rcases hstate with ⟨f1, f2, f3, f4⟩ | hdone | hrem
  · -- Fresh
    by_cases hm : memT st.tbl t s = true
    · obtain ⟨c, hc⟩ := exists_entry_of_memT st.tbl t s hm
      have hcsub : c ∈ subEntries tbl0 t s := f3 t ▸ subEntries_of_entry st.tbl t s c hc
      obtain ⟨g1, gdisj⟩ :=
        dispatchList_hit d s c (getTopic st.tbl t) st (getTopic_wfS st.tbl t hwf) hc f2
      have hdr : DoneSt tbl0 d s (dispatchList d (getTopic st.tbl t) st) ∨
          RemovedSt tbl0 d s (dispatchList d (getTopic st.tbl t) st) := by
        rcases gdisj with ⟨hsf, gseen, gerr, _⟩ | ⟨e, hsf, greg, gerr, gcl⟩
        · exact Or.inl ⟨by rw [g1, f1], gseen, t, c, hcsub, hsf⟩
        · exact Or.inr ⟨by rw [g1, f1], greg, gcl, t, c, e, hcsub, hsf,
            by rw [gerr, f4]; rfl⟩
      exact ⟨⟨hwf', Or.inr hdr⟩, fun _ => hdr, fun _ => hdr⟩
    · have hm' : memT st.tbl t s = false := Bool.eq_false_iff.2 hm
      obtain ⟨g1, g2, g3, g4, _⟩ := dispatchList_noop d s (getTopic st.tbl t) st
        (Or.inr (memT_false_not_mem_keys st.tbl t s hm'))
      have hfresh : FreshSt tbl0 s (dispatchList d (getTopic st.tbl t) st) :=
        ⟨by rw [g1, f1], fun hc => f2 (g2.1 hc), fun t' => by rw [g4 t', f3 t'],
          by rw [g3, f4]⟩
      refine ⟨⟨hwf', Or.inl hfresh⟩, ?_, ?_⟩
      · rintro (⟨hs1, _⟩ | ⟨hs1, _⟩) <;>
          · rw [f1] at hs1
            exact absurd hs1 (by simp)
      · intro hmem0
        exfalso
        have hsub0 : subEntries tbl0 t s ≠ [] := (memT_iff_subEntries tbl0 t s).1 hmem0
        have : subEntries st.tbl t s ≠ [] := by rw [f3 t]; exact hsub0
        exact hm ((memT_iff_subEntries st.tbl t s).2 this)
  · -- Done
    obtain ⟨d1, d2, d3⟩ := hdone
    obtain ⟨g1, g2, g3, g4, _⟩ :=
      dispatchList_noop d s (getTopic st.tbl t) st (Or.inl d2)
    have hd : DoneSt tbl0 d s (dispatchList d (getTopic st.tbl t) st) :=
      ⟨by rw [g1, d1], g2.2 d2, d3⟩
    exact ⟨⟨hwf', Or.inr (Or.inl hd)⟩, fun _ => Or.inl hd, fun _ => Or.inl hd⟩
  · -- Removed
    obtain ⟨r1, r2, r3, rex⟩ := hrem
    have hkeys : s ∉ (getTopic st.tbl t).map Prod.fst :=
      memT_false_not_mem_keys st.tbl t s (memT_eq_false_of_not_registered st.tbl s r2 t)
    obtain ⟨g1, _, g3, _, g5⟩ :=
      dispatchList_noop d s (getTopic st.tbl t) st (Or.inr hkeys)
    have hr : RemovedSt tbl0 d s (dispatchList d (getTopic st.tbl t) st) := by
      obtain ⟨t', c, e, hc, hsf, herr⟩ := rex
      exact ⟨by rw [g1, r1], by rw [g5, r2],
        dispatchList_closed_mono d _ st s r3, t', c, e, hc, hsf, by rw [g3, herr]⟩
    exact ⟨⟨hwf', Or.inr (Or.inr hr)⟩, fun _ => Or.inr hr, fun _ => Or.inr hr⟩

/-! ### The invariant across the whole topic loop -/

lemma dispatchTopics_inv (tbl0 : Topics) (d : Message) (s : SubId)
    (tps : List Topic) (st : DispatchSt) (h : InvSt tbl0 d s st) :
    InvSt tbl0 d s (dispatchTopics d tps st) ∧
    ((DoneSt tbl0 d s st ∨ RemovedSt tbl0 d s st) →
      (DoneSt tbl0 d s (dispatchTopics d tps st) ∨
        RemovedSt tbl0 d s (dispatchTopics d tps st))) := by
  induction tps generalizing st with
  | nil => exact ⟨h, id⟩
  | cons t ts ih =>
    rw [dispatchTopics, List.foldl_cons,
      show List.foldl (fun st t => dispatchList d (getTopic st.tbl t) st)
        (dispatchList d (getTopic st.tbl t) st) ts =
        dispatchTopics d ts (dispatchList d (getTopic st.tbl t) st) from rfl]
    obtain ⟨hi, hdr, _⟩ := stepTopic_inv tbl0 d s t st h
    obtain ⟨gi, gdr⟩ := ih _ hi
    exact ⟨gi, fun hd => gdr (hdr hd)⟩

lemma dispatchTopics_hit (tbl0 : Topics) (d : Message) (s : SubId)
    (tps : List Topic) (t1 : Topic) (st : DispatchSt) (h1 : t1 ∈ tps)
    (hm : memT tbl0 t1 s = true) (h : InvSt tbl0 d s st) :
    DoneSt tbl0 d s (dispatchTopics d tps st) ∨
      RemovedSt tbl0 d s (dispatchTopics d tps st) := by
  induction tps generalizing st with
  | nil => cases h1
  | cons t ts ih =>
    rw [dispatchTopics, List.foldl_cons,
      show List.foldl (fun st t => dispatchList d (getTopic st.tbl t) st)
        (dispatchList d (getTopic st.tbl t) st) ts =
        dispatchTopics d ts (dispatchList d (getTopic st.tbl t) st) from rfl]
    obtain ⟨hi, _, hhit⟩ := stepTopic_inv tbl0 d s t st h
    rcases List.mem_cons.1 h1 with rfl | hts
    · exact (dispatchTopics_inv tbl0 d s ts _ hi).2 (hhit hm)
    · exact ih _ hts hi

/-! ### Payload and GC bookkeeping of the publish arm -/

lemma dispatchList_sends_payload (d : Message) (lst : Subscribers)
    (st : DispatchSt) (h : ∀ p ∈ st.log.sends, p.2 = d) :
    ∀ p ∈ (dispatchList d lst st).log.sends, p.2 = d := by
  induction lst generalizing st with
  | nil => exact h
  | cons q rest ih =>
    rw [dispatchList, List.foldl_cons]
    apply ih
    unfold dispatchOne
    by_cases hseen : q.1 ∈ st.seen
    · simpa [hseen] using h
    · simp only [hseen, if_false]
      cases sendFlush q.2 d with
      | some e =>
        intro p hp
        rcases List.mem_append.1 hp with hl | hr
        · exact h p hl
        · simp at hr; rw [hr]
      | none =>
        intro p hp
        rcases List.mem_append.1 hp with hl | hr
        · exact h p hl
        · simp at hr; rw [hr]

lemma dispatchTopics_sends_payload (d : Message) (tps : List Topic)
    (st : DispatchSt) (h : ∀ p ∈ st.log.sends, p.2 = d) :
    ∀ p ∈ (dispatchTopics d tps st).log.sends, p.2 = d := by
  induction tps generalizing st with
  | nil => exact h
  | cons t ts ih =>
    rw [dispatchTopics, List.foldl_cons,
      show List.foldl (fun st t => dispatchList d (getTopic st.tbl t) st)
        (dispatchList d (getTopic st.tbl t) st) ts =
        dispatchTopics d ts (dispatchList d (getTopic st.tbl t) st) from rfl]
    exact ih _ (dispatchList_sends_payload d _ st h)

lemma dispatchList_gcCalls (d : Message) (lst : Subscribers) (st : DispatchSt) :
    (dispatchList d lst st).log.gcCalls = st.log.gcCalls := by
  induction lst generalizing st with
  | nil => rfl
  | cons q rest ih =>
    rw [dispatchList, List.foldl_cons,
      show List.foldl (dispatchOne d) (dispatchOne d st q) rest =
        dispatchList d rest (dispatchOne d st q) from rfl, ih]
    unfold dispatchOne
    by_cases hseen : q.1 ∈ st.seen
    · simp [hseen]
    · simp only [hseen, if_false]
      cases sendFlush q.2 d with
      | some e => rfl
      | none => rfl

lemma dispatchTopics_gcCalls (d : Message) (tps : List Topic) (st : DispatchSt) :
    (dispatchTopics d tps st).log.gcCalls = st.log.gcCalls := by
  induction tps generalizing st with
  | nil => rfl
  | cons t ts ih =>
    rw [dispatchTopics, List.foldl_cons,
      show List.foldl (fun st t => dispatchList d (getTopic st.tbl t) st)
        (dispatchList d (getTopic st.tbl t) st) ts =
        dispatchTopics d ts (dispatchList d (getTopic st.tbl t) st) from rfl]
    rw [ih, dispatchList_gcCalls]

/-! ### Registration lemmas for the subscribe arm -/

lemma setSub_any_self (subs : Subscribers) (s : SubId) (c : Client) :
    (setSub subs s c).any (fun p => p.1 == s) = true := by
  unfold setSub
  by_cases hcond : subs.any (fun p => p.1 == s) = true
  · simp only [hcond, if_true]
    rw [List.any_eq_true] at hcond ⊢
    obtain ⟨p, hp, hps⟩ := hcond
    exact ⟨(s, c), List.mem_map.2 ⟨p, hp, by simp [hps]⟩, by simp⟩
  · rw [Bool.not_eq_true] at hcond
    simp only [hcond, Bool.false_eq_true, if_false]
    rw [List.any_append]
    simp

lemma setSub_any_mono (subs : Subscribers) (s s' : SubId) (c' : Client)
    (h : subs.any (fun p => p.1 == s) = true) :
    (setSub subs s' c').any (fun p => p.1 == s) = true := by
  unfold setSub
  by_cases hcond : subs.any (fun p => p.1 == s') = true
  · simp only [hcond, if_true]
    rw [List.any_eq_true] at h ⊢
    obtain ⟨p, hp, hps⟩ := h
    refine ⟨(fun q => if q.1 == s' then (s', c') else q) p,
      List.mem_map.2 ⟨p, hp, rfl⟩, ?_⟩
    by_cases hq : p.1 = s'
    · subst hq
      simp only [beq_self_eq_true, if_true]
      exact hps
    · have : (p.1 == s') = false := by simp [hq]
      simp only [this, Bool.false_eq_true, if_false]
      exact hps
  · rw [Bool.not_eq_true] at hcond
    simp only [hcond, Bool.false_eq_true, if_false]
    rw [List.any_append, h]
    rfl

lemma getTopic_eq_of_find? {tbl : Topics} {t : Topic} {e : Topic × Subscribers}
    (h : tbl.find? (fun e => e.1 == t) = some e) : getTopic tbl t = e.2 := by
  unfold getTopic
  rw [h]

lemma find?_topicInsert (tbl : Topics) (t t' : Topic) (s : SubId) (c : Client) :
    (topicInsert tbl t' s c).find? (fun e => e.1 == t) =
      ((ensureTopic tbl t').find? (fun e => e.1 == t)).map
        (fun e => if e.1 == t' then (e.1, setSub e.2 s c) else e) := by
  unfold topicInsert
  rw [List.find?_map]
  have hcomp : ((fun e => e.1 == t) ∘
      (fun e => if e.1 == t' then (e.1, setSub e.2 s c) else e)) =
      (fun e : Topic × Subscribers => e.1 == t) := by
    funext e
    by_cases he : e.1 = t' <;> simp [Function.comp, he]
  rw [hcomp]

lemma ensureTopic_find?_self (tbl : Topics) (t : Topic) :
    ∃ e, (ensureTopic tbl t).find? (fun e => e.1 == t) = some e := by
  rw [← Option.isSome_iff_exists, List.find?_isSome]
  unfold ensureTopic
  by_cases hany : tbl.any (fun e => e.1 == t) = true
  · simp only [hany, if_true]
    rw [List.any_eq_true] at hany
    exact hany
  · rw [Bool.not_eq_true] at hany
    simp only [hany, Bool.false_eq_true, if_false]
    exact ⟨(t, []), by simp⟩

lemma memT_topicInsert_self (tbl : Topics) (t : Topic) (s : SubId) (c : Client) :
    memT (topicInsert tbl t s c) t s = true := by
  obtain ⟨e, he⟩ := ensureTopic_find?_self tbl t
  have het : (e.1 == t) = true := by
    have := List.find?_some he
    simpa using this
  have hget : getTopic (topicInsert tbl t s c) t =
      (if (e.1 == t) = true then (e.1, setSub e.2 s c) else e).2 := by
    apply getTopic_eq_of_find?
    rw [find?_topicInsert, he]
    rfl
  unfold memT
  rw [hget, if_pos het]
  exact setSub_any_self e.2 s c

lemma memT_topicInsert_mono (tbl : Topics) (t t' : Topic) (s s' : SubId)
    (c' : Client) (h : memT tbl t s = true) :
    memT (topicInsert tbl t' s' c') t s = true := by
  unfold memT getTopic at h
  cases hf : tbl.find? (fun e => e.1 == t) with
  | none =>
    rw [hf] at h
    exact absurd h (by simp)
  | some e0 =>
    rw [hf] at h
    have hens : (ensureTopic tbl t').find? (fun e => e.1 == t) = some e0 := by
      unfold ensureTopic
      by_cases hany : tbl.any (fun e => e.1 == t') = true
      · simp only [hany, if_true]
        exact hf
      · rw [Bool.not_eq_true] at hany
        simp only [hany, Bool.false_eq_true, if_false]
        rw [List.find?_append, hf]
        rfl
    have hget : getTopic (topicInsert tbl t' s' c') t =
        (if (e0.1 == t') = true then (e0.1, setSub e0.2 s' c') else e0).2 := by
      apply getTopic_eq_of_find?
      rw [find?_topicInsert, hens]
      rfl
    unfold memT
    rw [hget]
    by_cases het' : e0.1 = t'
    · subst het'
      simp only [beq_self_eq_true, if_true]
      exact setSub_any_mono e0.2 s s' c' h
    · have hne : (e0.1 == t') = false := by simp [het']
      rw [hne]
      simp only [Bool.false_eq_true, if_false]
      exact h

lemma memT_regFold_mono (tps : List Topic) (tbl : Topics) (t : Topic)
    (s s' : SubId) (c : Client) (h : memT tbl t s = true) :
    memT (tps.foldl (fun acc tp => topicInsert acc tp s' c) tbl) t s = true := by
  induction tps generalizing tbl with
  | nil => exact h
  | cons tp ts ih =>
    rw [List.foldl_cons]
    exact ih _ (memT_topicInsert_mono tbl t tp s s' c h)

lemma memT_regFold (tps : List Topic) (tbl : Topics) (t : Topic) (s : SubId)
    (c : Client) (h : t ∈ tps) :
    memT (tps.foldl (fun acc tp => topicInsert acc tp s c) tbl) t s = true := by
  induction tps generalizing tbl with
  | nil => cases h
  | cons tp ts ih =>
    rw [List.foldl_cons]
    rcases List.mem_cons.1 h with rfl | hts
    · exact memT_regFold_mono ts _ t s s c (memT_topicInsert_self tbl t s c)
    · exact ih _ hts

/-! ### Cleanup lemmas (`Joe.closeSubscribers`) -/

lemma closeAcc_nodup (subs : Subscribers) (acc : List SubId) (h : acc.Nodup) :
    (closeAcc acc subs).Nodup := by
  induction subs generalizing acc with
  | nil => exact h
  | cons p rest ih =>
    rw [closeAcc, List.foldl_cons,
      show List.foldl (fun acc p => if p.1 ∈ acc then acc else acc ++ [p.1])
        (if p.1 ∈ acc then acc else acc ++ [p.1]) rest =
        closeAcc (if p.1 ∈ acc then acc else acc ++ [p.1]) rest from rfl]
    by_cases hp : p.1 ∈ acc
    · simp only [hp, if_true]
      exact ih acc h
    · simp only [hp, if_false]
      apply ih
      rw [List.nodup_append]
      refine ⟨h, List.nodup_singleton _, ?_⟩
      intro x hx hx1
      rw [List.mem_singleton] at hx1
      exact hp (hx1 ▸ hx)

lemma closeAcc_mem (subs : Subscribers) (acc : List SubId) (x : SubId) :
    x ∈ closeAcc acc subs ↔ x ∈ acc ∨ x ∈ subs.map Prod.fst := by
  induction subs generalizing acc with
  | nil =>
    show x ∈ acc ↔ x ∈ acc ∨ x ∈ ([] : Subscribers).map Prod.fst
    simp
  | cons p rest ih =>
    rw [closeAcc, List.foldl_cons,
      show List.foldl (fun acc p => if p.1 ∈ acc then acc else acc ++ [p.1])
        (if p.1 ∈ acc then acc else acc ++ [p.1]) rest =
        closeAcc (if p.1 ∈ acc then acc else acc ++ [p.1]) rest from rfl]
    by_cases hp : p.1 ∈ acc
    · simp only [hp, if_true]
      rw [ih]
      rw [List.map_cons, List.mem_cons]
      constructor
      · rintro (h | h)
        · exact Or.inl h
        · exact Or.inr (Or.inr h)
      · rintro (h | h | h)
        · exact Or.inl h
        · exact Or.inl (h ▸ hp)
        · exact Or.inr h
    · simp only [hp, if_false]
      rw [ih]
      rw [List.map_cons, List.mem_cons, List.mem_append, List.mem_singleton]
      constructor
      · rintro ((h | h) | h)
        · exact Or.inl h
        · exact Or.inr (Or.inl h)
        · exact Or.inr (Or.inr h)
      · rintro (h | h | h)
        · exact Or.inl (Or.inl h)
        · exact Or.inl (Or.inr h)
        · exact Or.inr h

lemma closeFold_nodup (tbl : Topics) (acc : List SubId) (h : acc.Nodup) :
    (tbl.foldl (fun seen e => closeAcc seen e.2) acc).Nodup := by
  induction tbl generalizing acc with
  | nil => exact h
  | cons e rest ih =>
    rw [List.foldl_cons]
    exact ih _ (closeAcc_nodup e.2 acc h)

lemma closeFold_mem (tbl : Topics) (acc : List SubId) (x : SubId) :
    x ∈ tbl.foldl (fun seen e => closeAcc seen e.2) acc ↔
      x ∈ acc ∨ ∃ e ∈ tbl, x ∈ e.2.map Prod.fst := by
  induction tbl generalizing acc with
  | nil => simp
  | cons e rest ih =>
    rw [List.foldl_cons, ih, closeAcc_mem]
    constructor
    · rintro ((h | h) | ⟨e', he', hx⟩)
      · exact Or.inl h
      · exact Or.inr ⟨e, List.mem_cons_self e rest, h⟩
      · exact Or.inr ⟨e', List.mem_cons_of_mem e he', hx⟩
    · rintro (h | ⟨e', he', hx⟩)
      · exact Or.inl (Or.inl h)
      · rcases List.mem_cons.1 he' with rfl | hrest
        · exact Or.inl (Or.inr hx)
        · exact Or.inr ⟨e', hrest, hx⟩

lemma closeSubscribers_nodup (tbl : Topics) : (closeSubscribers tbl).Nodup :=
  closeFold_nodup tbl [] List.nodup_nil

lemma closeSubscribers_mem (tbl : Topics) (x : SubId) :
    x ∈ closeSubscribers tbl ↔ registeredB tbl x = true := by
  unfold closeSubscribers
  rw [closeFold_mem]
  unfold registeredB
  rw [List.any_eq_true]
  constructor
  · rintro (h | ⟨e, he, hx⟩)
    · cases h
    · rw [List.mem_map] at hx
      obtain ⟨p, hp, hps⟩ := hx
      exact ⟨e, he, List.any_eq_true.2 ⟨p, hp, by simp [hps]⟩⟩
  · rintro ⟨e, he, hx⟩
    rw [List.any_eq_true] at hx
    obtain ⟨p, hp, hps⟩ := hx
    exact Or.inr ⟨e, he, List.mem_map.2 ⟨p, hp, by simpa using hps⟩⟩

/-! ### Key monotonicity of the subscribe arm -/

lemma topicInsert_keys (tbl : Topics) (t' : Topic) (s : SubId) (c : Client) :
    (topicInsert tbl t' s c).map Prod.fst = (ensureTopic tbl t').map Prod.fst := by
  unfold topicInsert
  rw [List.map_map]
  apply List.map_congr_left
  intro e _
  by_cases he : e.1 = t' <;> simp [Function.comp, he]

lemma ensureTopic_keys_mono (tbl : Topics) (t t' : Topic)
    (h : t ∈ tbl.map Prod.fst) : t ∈ (ensureTopic tbl t').map Prod.fst := by
  unfold ensureTopic
  by_cases hany : tbl.any (fun e => e.1 == t') = true
  · simp only [hany, if_true]
    exact h
  · rw [Bool.not_eq_true] at hany
    simp only [hany, Bool.false_eq_true, if_false]
    rw [List.map_append]
    exact List.mem_append_left _ h

lemma topicInsert_keys_mono (tbl : Topics) (t t' : Topic) (s : SubId) (c : Client)
    (h : t ∈ tbl.map Prod.fst) : t ∈ (topicInsert tbl t' s c).map Prod.fst := by
  rw [topicInsert_keys]
  exact ensureTopic_keys_mono tbl t t' h

lemma regFold_keys_mono (tps : List Topic) (tbl : Topics) (t : Topic) (s : SubId)
    (c : Client) (h : t ∈ tbl.map Prod.fst) :
    t ∈ (tps.foldl (fun acc tp => topicInsert acc tp s c) tbl).map Prod.fst := by
  induction tps generalizing tbl with
  | nil => exact h
  | cons tp ts ih =>
    rw [List.foldl_cons]
    exact ih _ (topicInsert_keys_mono tbl t tp s c h)

/-! ### GC bookkeeping of the engine -/

lemma publishStep_gcCalls (put : Message → List Topic → Message) (tbl : Topics)
    (m : Message) (tps : List Topic) : (publishStep put tbl m tps).2.gcCalls = [] := by
  show (dispatchTopics (put m tps) tps
    { tbl := tbl, seen := [], log := {} }).log.gcCalls = []
  rw [dispatchTopics_gcCalls]

lemma engineStep_gc_off (rp : ReplayProvider) (st : EngineState) (r : Request)
    (h : st.gcActive = false) :
    (engineStep rp st r).1.gcActive = false ∧ (engineStep rp st r).2.gcCalls = [] := by
  cases r with
  | publish m tps => exact ⟨h, publishStep_gcCalls rp.put st.topics m tps⟩
  | subscribe req =>
    refine ⟨h, ?_⟩
    show (subscribeStep rp st.topics req).2.gcCalls = []
    unfold subscribeStep
    cases rp.replay req.sub <;> rfl
  | unsubscribe s => exact ⟨h, rfl⟩
  | gcTick res => simp [engineStep, h]

lemma engineRun_gc_off (rp : ReplayProvider) (st : EngineState) (rs : List Request)
    (h : st.gcActive = false) :
    (engineRun rp st rs).1.gcActive = false ∧
    ∀ log ∈ (engineRun rp st rs).2, log.gcCalls = [] := by
  induction rs generalizing st with
  | nil =>
    refine ⟨h, ?_⟩
    intro log hl
    cases hl
  | cons r rs ih =>
    obtain ⟨h1, h2⟩ := engineStep_gc_off rp st r h
    obtain ⟨g1, g2⟩ := ih (engineStep rp st r).1 h1
    refine ⟨g1, ?_⟩
    intro log hl
    have hl' : log ∈ (engineStep rp st r).2 ::
        (engineRun rp (engineStep rp st r).1 rs).2 := hl
    rcases List.mem_cons.1 hl' with rfl | hrest
    · exact h2
    · exact g2 log hrest

/-! ### Claim theorems -/

/-- **C1**: in a publish step handled by the engine loop, a subscriber handle
registered under more than one of the published topics receives the dispatched
message — the one returned by the replay provider's `Put` — on its sink exactly
once, regardless of how many of the listed topics it is registered under. -/
theorem C1_publish_exactly_once (rp : ReplayProvider) (tbl : Topics) (m : Message)
    (tps : List Topic) (s : SubId) (t1 t2 : Topic) (hwf : WfT tbl)
    (h1 : t1 ∈ tps) (h2 : t2 ∈ tps) (hne : t1 ≠ t2)
    (hm1 : memT tbl t1 s = true) (hm2 : memT tbl t2 s = true) :
    sentTo (publishStep rp.put tbl m tps).2 s = 1 ∧
    ∀ p ∈ (publishStep rp.put tbl m tps).2.sends, p.2 = rp.put m tps := by
  have hInv : InvSt tbl (rp.put m tps) s { tbl := tbl, seen := [], log := {} } :=
    ⟨hwf, Or.inl ⟨rfl, by simp, fun t => rfl, rfl⟩⟩
  have hdr := dispatchTopics_hit tbl (rp.put m tps) s tps t1 _ h1 hm1 hInv
  constructor
  · show sentTo (dispatchTopics (rp.put m tps) tps
      { tbl := tbl, seen := [], log := {} }).log s = 1
    rcases hdr with ⟨hs, _⟩ | ⟨hs, _⟩ <;> exact hs
  · show ∀ p ∈ (dispatchTopics (rp.put m tps) tps
      { tbl := tbl, seen := [], log := {} }).log.sends, p.2 = rp.put m tps
    exact dispatchTopics_sends_payload (rp.put m tps) tps _ (by simp)

/-- Closed-input check of `C1_publish_exactly_once`: subscriber 0 sits under
both published topics and receives exactly one `Send` of the put message. -/
theorem C1_witness :
    sentTo (publishStep idProvider.put tblAB msgA ["a", "b"]).2 0 = 1 ∧
    ∀ p ∈ (publishStep idProvider.put tblAB msgA ["a", "b"]).2.sends,
      p.2 = idProvider.put msgA ["a", "b"] :=
  C1_publish_exactly_once idProvider tblAB msgA ["a", "b"] 0 "a" "b"
    (by decide) (by decide) (by decide) (by decide) (by decide) (by decide)

/-- **C4**: when every sink entry of a registered subscriber fails
(`Send`, or `Flush` after a successful `Send`) with error `e` during a publish
step, that error is the one delivered on the subscriber's done channel (hence
the value its blocked `Subscribe` call returns), and the subscriber is removed
from every topic and its handle closed. -/
theorem C4_send_failure_removal (rp : ReplayProvider) (tbl : Topics) (m : Message)
    (tps : List Topic) (s : SubId) (e : Err) (t1 : Topic) (hwf : WfT tbl)
    (h1 : t1 ∈ tps) (hm1 : memT tbl t1 s = true)
    (hfail : ∀ t c, c ∈ subEntries tbl t s → sendFlush c (rp.put m tps) = some e) :
    errsFor (publishStep rp.put tbl m tps).2 s = [e] ∧
    subscribeReturn (errsFor (publishStep rp.put tbl m tps).2 s) = some e ∧
    registeredB (publishStep rp.put tbl m tps).1 s = false ∧
    s ∈ (publishStep rp.put tbl m tps).2.closedSubs := by
  have hInv : InvSt tbl (rp.put m tps) s { tbl := tbl, seen := [], log := {} } :=
    ⟨hwf, Or.inl ⟨rfl, by simp, fun t => rfl, rfl⟩⟩
  have hdr := dispatchTopics_hit tbl (rp.put m tps) s tps t1 _ h1 hm1 hInv
  rcases hdr with ⟨_, _, t', c, hc, hsf⟩ | ⟨hs1, hs2, hs3, t', c, e', hc, hsf, herr⟩
  · have := hfail t' c hc
    rw [hsf] at this
    exact absurd this (by simp)
  · have he : e' = e := by
      have := hfail t' c hc
      rw [hsf] at this
      exact Option.some_inj.1 this
    subst he
    refine ⟨?_, ?_, ?_, ?_⟩
    · show errsFor (dispatchTopics (rp.put m tps) tps
        { tbl := tbl, seen := [], log := {} }).log s = [e']
      exact herr
    · show subscribeReturn (errsFor (dispatchTopics (rp.put m tps) tps
        { tbl := tbl, seen := [], log := {} }).log s) = some e'
      rw [herr]
      rfl
    · exact hs2
    · exact hs3

/-- Closed-input check of `C4_send_failure_removal`: subscriber 0's failing
sink gets it the sink error on its channel, pruned from both topics, closed. -/
theorem C4_witness :
    errsFor (publishStep idProvider.put tblBad msgA ["a", "b"]).2 0 = [Err.sinkFail 7] ∧
    subscribeReturn (errsFor (publishStep idProvider.put tblBad msgA ["a", "b"]).2 0) =
      some (Err.sinkFail 7) ∧
    registeredB (publishStep idProvider.put tblBad msgA ["a", "b"]).1 0 = false ∧
    0 ∈ (publishStep idProvider.put tblBad msgA ["a", "b"]).2.closedSubs := by
  refine C4_send_failure_removal idProvider tblBad msgA ["a", "b"] 0 (Err.sinkFail 7) "a"
    (by decide) (by decide) (by decide) ?_
  intro t c hc
  by_cases ha : t = "a"
  · subst ha
    have hred : subEntries tblBad "a" 0 = [badClient] := rfl
    rw [hred] at hc
    rw [List.mem_singleton] at hc
    subst hc
    rfl
  · by_cases hb : t = "b"
    · subst hb
      have hred : subEntries tblBad "b" 0 = [badClient] := rfl
      rw [hred] at hc
      rw [List.mem_singleton] at hc
      subst hc
      rfl
    · exfalso
      have hnone : tblBad.find? (fun e => e.1 == t) = none := by
        rw [List.find?_eq_none]
        intro x hx
        simp only [tblBad, List.mem_cons, List.mem_singleton, List.not_mem_nil,
          or_false] at hx
        rcases hx with rfl | rfl
        · simpa using Ne.symm ha
        · simpa using Ne.symm hb
      have hempty : subEntries tblBad t 0 = [] := by
        unfold subEntries getTopic
        rw [hnone]
        rfl
      rw [hempty] at hc
      cases hc

/-- **C2** (documents the defect in `replay_noop.go`): as written, the noop
provider's `Put` is a one-argument function returning its input and its
`Replay` returns the boolean `true` for every subscription, not a nil
`error` — with these signatures it cannot satisfy the `ReplayProvider`
contract (`Put(message, topics) *Message`, `Replay(Subscription) error`) that
`joe.go` invokes and that `replay_noop.go` itself asserts via
`var _ ReplayProvider = (*noopReplayProvider)(nil)`. -/
theorem C2_noop_as_written (m : Message) (sub : Subscription) :
    noopReplayProvider_Put m = m ∧ noopReplayProvider_Replay sub = true :=
  ⟨rfl, rfl⟩

/-- **C3**: with the stop signal not yet closed (and the caller's context not
done), `Shutdown` succeeds returning nil; a second `Shutdown` hits the panic
on re-closing `j.done`, which the deferred `recover` converts to
`ErrProviderClosed` before the wait on `j.closed` — the second call neither
blocks nor panics, it returns the sentinel. -/
theorem C3_shutdown_idempotent (st : JoeState) (h : st.doneClosed = false) :
    (shutdown st).1 = none ∧
    (shutdown (shutdown st).2).1 = some Err.providerClosed := by
  unfold shutdown loopExit
  simp [h]

/-- Closed-input check of `C3_shutdown_idempotent` on a running provider. -/
theorem C3_witness :
    (shutdown jsOpen).1 = none ∧
    (shutdown (shutdown jsOpen).2).1 = some Err.providerClosed :=
  C3_shutdown_idempotent jsOpen rfl

/-- **C5**: `Publish` with an empty topic list fails with `ErrNoTopic` before
doing anything else; no request reaches the engine loop (second component
`none`), and the replay provider's `Put` is invoked only by the loop's publish
arm, so `Put` is never contacted. -/
theorem C5_publish_no_topic (st : JoeState) (m : Message) :
    publish st m [] = (some Err.noTopic, none) := rfl

/-- **C6**: in the subscribe arm, a failing `Replay` delivers its error on the
request's completion channel, closes it, and leaves the topic table untouched;
a successful `Replay` registers the subscriber's sink under every requested
topic. -/
theorem C6_subscribe_step (rp : ReplayProvider) (tbl : Topics) (req : SubRequest)
    (e : Err) :
    (rp.replay req.sub = some e →
      subscribeStep rp tbl req =
        (tbl, { errs := [(req.done, e)], closedSubs := [req.done] })) ∧
    (rp.replay req.sub = none →
      ∀ t ∈ req.sub.topics, memT (subscribeStep rp tbl req).1 t req.done = true) := by
  constructor
  · intro h
    unfold subscribeStep
    rw [h]
  · intro h t ht
    unfold subscribeStep
    rw [h]
    exact memT_regFold req.sub.topics tbl t req.done req.sub.client ht

/-- Closed-input check of `C6_subscribe_step`: a failing replay provider
leaves the empty table unchanged and reports the error; a succeeding one
registers handle 5 under both requested topics. -/
theorem C6_witness :
    subscribeStep failProvider [] reqA =
      ([], { errs := [(reqA.done, Err.replayFail 3)], closedSubs := [reqA.done] }) ∧
    ∀ t ∈ reqA.sub.topics, memT (subscribeStep idProvider [] reqA).1 t reqA.done = true :=
  ⟨(C6_subscribe_step failProvider [] reqA (Err.replayFail 3)).1 rfl,
   (C6_subscribe_step idProvider [] reqA (Err.replayFail 3)).2 rfl⟩

/-- **C7**: the deferred cleanup run on every exit of the engine loop — normal
return on the stop signal or panic unwind from `Put`/`Replay` alike — emits
the closed signal, stops the GC ticker, and closes exactly the handles still
present in the topic table, each one exactly once (the closing order is
duplicate-free) however many topics a handle is registered under. -/
theorem C7_loop_cleanup (st : JoeState) :
    (loopExit st).1.closedClosed = true ∧
    (loopExit st).1.engine.gcActive = false ∧
    (loopExit st).2.Nodup ∧
    (∀ s, registeredB st.engine.topics s = true ↔ s ∈ (loopExit st).2) := by
  refine ⟨rfl, rfl, closeSubscribers_nodup _, ?_⟩
  intro s
  exact (closeSubscribers_mem st.engine.topics s).symm

/-- Closed-input check of `C7_loop_cleanup`: handle 0 sits under two topics of
`jsOpen` yet the cleanup closes it once. -/
theorem C7_witness :
    (loopExit jsOpen).1.closedClosed = true ∧
    (loopExit jsOpen).1.engine.gcActive = false ∧
    (loopExit jsOpen).2.Nodup ∧
    (∀ s, registeredB jsOpen.engine.topics s = true ↔ s ∈ (loopExit jsOpen).2) :=
  C7_loop_cleanup jsOpen

/-- **C8**: no engine step removes a topic entry: a topic key present in the
table before a publish, subscribe, unsubscribe or GC step is still present
after it — steps remove individual subscriber handles only, never entries,
even when a subscriber set becomes empty. -/
theorem C8_topic_entries_persist (rp : ReplayProvider) (st : EngineState)
    (r : Request) (t : Topic) (h : t ∈ st.topics.map Prod.fst) :
    t ∈ (engineStep rp st r).1.topics.map Prod.fst := by
  cases r with
  | publish m tps =>
    show t ∈ (publishStep rp.put st.topics m tps).1.map Prod.fst
    have hk : (publishStep rp.put st.topics m tps).1.map Prod.fst =
        st.topics.map Prod.fst :=
      dispatchTopics_keys (rp.put m tps) tps { tbl := st.topics, seen := [], log := {} }
    rw [hk]
    exact h
  | subscribe req =>
    show t ∈ (subscribeStep rp st.topics req).1.map Prod.fst
    unfold subscribeStep
    cases rp.replay req.sub with
    | some e => exact h
    | none => exact regFold_keys_mono req.sub.topics st.topics t req.done req.sub.client h
  | unsubscribe s =>
    show t ∈ (removeSub st.topics s).map Prod.fst
    rw [removeSub_keys]
    exact h
  | gcTick res =>
    by_cases hg : st.gcActive <;> simp only [engineStep, hg, if_true, if_false] <;> exact h

/-- Closed-input check of `C8_topic_entries_persist`: removing the last
subscriber of topic `b` leaves the `b` entry in place. -/
theorem C8_witness :
    ("b" : Topic) ∈ (engineStep idProvider esActive
      (Request.unsubscribe 0)).1.topics.map Prod.fst :=
  C8_topic_entries_persist idProvider esActive (Request.unsubscribe 0) "b" (by decide)

/-- **C9**: a GC tick on which `GC()` fails is the last one — the loop calls
`stopGCSignal()`, so over any subsequent request sequence no step invokes
`GC()` again on this provider instance — while publish and subscribe requests
keep performing exactly their usual transition, independent of the GC state. -/
theorem C9_gc_disabled (rp : ReplayProvider) (st : EngineState) (e : Err)
    (rs : List Request) (hactive : st.gcActive = true) :
    (engineStep rp st (Request.gcTick (some e))).2.gcCalls = [some e] ∧
    (engineStep rp st (Request.gcTick (some e))).1.gcActive = false ∧
    (engineRun rp (engineStep rp st (Request.gcTick (some e))).1 rs).1.gcActive = false ∧
    (∀ log ∈ (engineRun rp (engineStep rp st (Request.gcTick (some e))).1 rs).2,
      log.gcCalls = []) ∧
    (∀ b m tps, engineStep rp { st with gcActive := b } (Request.publish m tps) =
      ({ topics := (publishStep rp.put st.topics m tps).1, gcActive := b },
        (publishStep rp.put st.topics m tps).2)) ∧
    (∀ b req, engineStep rp { st with gcActive := b } (Request.subscribe req) =
      ({ topics := (subscribeStep rp st.topics req).1, gcActive := b },
        (subscribeStep rp st.topics req).2)) := by
  have hstep : engineStep rp st (Request.gcTick (some e)) =
      ({ st with gcActive := false }, { gcCalls := [some e] }) := by
    simp [engineStep, hactive]
  rw [hstep]
  obtain ⟨g1, g2⟩ := engineRun_gc_off rp { st with gcActive := false } rs rfl
  exact ⟨rfl, rfl, g1, g2, fun b m tps => rfl, fun b req => rfl⟩

/-- Closed-input check of `C9_gc_disabled` with one subsequent publish tick. -/
theorem C9_witness :
    (engineStep idProvider esActive (Request.gcTick (some (Err.gcFail 1)))).2.gcCalls =
      [some (Err.gcFail 1)] ∧
    (engineStep idProvider esActive (Request.gcTick (some (Err.gcFail 1)))).1.gcActive = false ∧
    (engineRun idProvider (engineStep idProvider esActive
      (Request.gcTick (some (Err.gcFail 1)))).1
      [Request.publish msgA ["a"]]).1.gcActive = false ∧
    (∀ log ∈ (engineRun idProvider (engineStep idProvider esActive
      (Request.gcTick (some (Err.gcFail 1)))).1
      [Request.publish msgA ["a"]]).2, log.gcCalls = []) ∧
    (∀ b m tps, engineStep idProvider { esActive with gcActive := b }
        (Request.publish m tps) =
      ({ topics := (publishStep idProvider.put esActive.topics m tps).1, gcActive := b },
        (publishStep idProvider.put esActive.topics m tps).2)) ∧
    (∀ b req, engineStep idProvider { esActive with gcActive := b }
        (Request.subscribe req) =
      ({ topics := (subscribeStep idProvider esActive.topics req).1, gcActive := b },
        (subscribeStep idProvider esActive.topics req).2)) :=
  C9_gc_disabled idProvider esActive (Err.gcFail 1) [Request.publish msgA ["a"]] rfl

/-- **C10**: the empty-topic check of `Publish` precedes the closed-provider
check, so even after shutdown an empty-topic `Publish` returns `ErrNoTopic`
rather than `ErrProviderClosed`. -/
theorem C10_no_topic_precedence (st : JoeState) (m : Message)
    (h : st.doneClosed = true) :
    publish st m [] = (some Err.noTopic, none) := rfl

/-- Closed-input check of `C10_no_topic_precedence` on a shut-down provider. -/
theorem C10_witness : publish jsClosed msgA [] = (some Err.noTopic, none) :=
  C10_no_topic_precedence jsClosed msgA rfl

end GoSSE
